import Mathlib

/-!
Verification of the trezor-agent core pipeline: the identity record and
canonicalizer, the path deriver, the challenge-blob frame reader and the
signature post-processing step, shallowly embedded from
src/trezor_agent/trezor/client.py.  Strings are modelled as lists of
characters and byte strings as lists of natural numbers below 256.
-/

namespace TrezorAgent

/-- Error kinds of the design: formatError for malformed inputs and
protocolMismatch for a device answer that does not match the request.
The source signals both through failing assertions; the partition into
the two kinds follows the error-handling design of the documentation. -/
inductive AgentError where
  | formatError
  | protocolMismatch
deriving DecidableEq

/-- Identity record with the fields proto, user, host, port, path and index.
A field that is absent is the empty list, matching the truthiness-based
filtering of the source, where an absent group and an empty string collapse
to the same identity field.  The index defaults to zero. -/
structure Identity where
  proto : List Char
  user : List Char
  host : List Char
  port : List Char
  path : List Char
  index : Nat
deriving DecidableEq

/-- Word characters of the character class used by the port group of the
label grammar: ASCII letters, digits and the underscore. -/
def isWordChar (c : Char) : Bool :=
  c.isAlphanum || c == '_'

/-- Protocol separator of the label grammar, the three characters
colon, slash, slash. -/
def sep3 : List Char := [':', '/', '/']

/-- Splits a list around the last occurrence of the pattern pat, returning
the part before that occurrence and the part after it, or none when pat
does not occur.  A greedy dot-star group followed by pat inside the label
grammar matches exactly the part before the last occurrence, because the
rest of the grammar accepts every remainder; this function is that split. -/
def splitLast (pat : List Char) : List Char → Option (List Char × List Char)
  | [] => if pat.isPrefixOf ([] : List Char) then some ([], ([] : List Char).drop pat.length) else none
  | c :: s =>
    match splitLast pat s with
    | some (pre, post) => some (c :: pre, post)
    | none => if pat.isPrefixOf (c :: s) then some ([], (c :: s).drop pat.length) else none

/-- Optional proto group of the label grammar: when the separator occurs,
the greedy group takes everything before its last occurrence. -/
def protoSplit (s : List Char) : Option (List Char) × List Char :=
  match splitLast sep3 s with
  | some (pre, post) => (some pre, post)
  | none => (none, s)

/-- Optional user group of the label grammar: when an at sign occurs in the
remainder, the greedy group takes everything before the last one. -/
def userSplit (s : List Char) : Option (List Char) × List Char :=
  match splitLast ['@'] s with
  | some (pre, post) => (some pre, post)
  | none => (none, s)

/-- Decides whether the rest of a port candidate lets the port group match:
after the maximal run of word characters the input must either end or
continue with a slash that starts the path group. -/
def checkPort (r : List Char) : Bool :=
  match r.dropWhile isWordChar with
  | [] => true
  | c :: _ => c == '/'

/-- Decides whether a suffix of the label is accepted by the part of the
grammar after the lazy host group: the empty suffix, a path starting with
a slash, or a colon starting a port whose word run is followed by nothing
or by a path. -/
def viable (u : List Char) : Bool :=
  match u with
  | [] => true
  | c :: r => c == '/' || (c == ':' && checkPort r)

/-- Lazy host group of the label grammar: the host is the shortest prefix
whose complement suffix is accepted by the rest of the grammar. -/
def hostSplit (t : List Char) : List Char × List Char :=
  match t with
  | [] => ([], [])
  | c :: r =>
    if viable (c :: r) then ([], c :: r)
    else ((c :: (hostSplit r).1), (hostSplit r).2)

/-- Port and path groups of the label grammar, applied to the suffix left
by the host group: a leading colon starts the greedy word-character port,
with the rest, if any, forming the path; otherwise the whole suffix, when
nonempty, is the path. -/
def portPathSplit (u : List Char) : Option (List Char) × Option (List Char) :=
  match u with
  | [] => (none, none)
  | c :: r =>
    if c = ':' then
      (some (r.takeWhile isWordChar),
        if r.dropWhile isWordChar = [] then none else some (r.dropWhile isWordChar))
    else (none, some (c :: r))

/-- Raw named groups produced by matching the label grammar; a group that
did not participate in the match is none. -/
structure RawMatch where
  proto : Option (List Char)
  user : Option (List Char)
  host : List Char
  port : Option (List Char)
  path : Option (List Char)
deriving DecidableEq

/-- Matches a label against the identity grammar with the leftmost-greedy
semantics of the source regular expression: greedy proto, greedy user,
lazy host, greedy alphanumeric-or-underscore port, then path to the end.
The greedy optional groups always commit to the last separator occurrence
because every remainder is accepted by the rest of the grammar, and the
lazy host takes the shortest prefix whose complement the rest of the
grammar accepts, so the match never fails.  The embedding takes the dot
class to match every character and the end anchor to mean the end of the
input, the usual simplification of the newline conventions. -/
def matchIdentity (s : List Char) : RawMatch :=
  ⟨(protoSplit s).1,
   (userSplit (protoSplit s).2).1,
   (hostSplit (userSplit (protoSplit s).2).2).1,
   (portPathSplit (hostSplit (userSplit (protoSplit s).2).2).2).1,
   (portPathSplit (hostSplit (userSplit (protoSplit s).2).2).2).2⟩

/-- Truthiness filter of the source: an absent group and an empty group
both yield an absent identity field. -/
def truthy : Option (List Char) → List Char
  | some l => l
  | none => []

/-- Modelled from the spec: the identity constructor obtained through the
factory module is not under src; the data model makes host the only
mandatory field, and a label that cannot assign a non-empty host fails
with a format error. -/
def mkIdentityRecord (proto user host port path : List Char) :
    Except AgentError Identity :=
  if host = [] then .error .formatError
  else .ok ⟨proto, user, host, port, path, 0⟩

/-- Parses a label into an identity: match the grammar, drop falsy groups,
construct the identity record. -/
def string_to_identity (s : List Char) : Except AgentError Identity :=
  let m := matchIdentity s
  mkIdentityRecord (truthy m.proto) (truthy m.user) m.host (truthy m.port) (truthy m.path)

/-- Serializes an identity back to its canonical label: present fields are
concatenated in the order proto, user, host, port, path with their
separators; fields equal to the empty list are skipped. -/
def identity_to_string (identity : Identity) : List Char :=
  (if identity.proto = [] then [] else identity.proto ++ sep3) ++
  (if identity.user = [] then [] else identity.user ++ ['@']) ++
  identity.host ++
  (if identity.port = [] then [] else ':' :: identity.port) ++
  (if identity.path = [] then [] else identity.path)

/-- Parses the label and then overwrites the proto field with ssh, as the
client does before any device operation. -/
def get_identity (s : List Char) : Except AgentError Identity :=
  match string_to_identity s with
  | .error e => .error e
  | .ok i => .ok ⟨"ssh".data, i.user, i.host, i.port, i.path, i.index⟩

/-- Four-byte little-endian encoding of a 32-bit index. -/
def packLE32 (n : Nat) : List Nat :=
  [n % 256, n / 256 % 256, n / 65536 % 256, n / 16777216 % 256]

/-- ASCII bytes of a character list. -/
def ascii (l : List Char) : List Nat := l.map Char.toNat

/-- Little-endian value of a byte chunk. -/
def le32of (l : List Nat) : Nat := l.foldr (fun b acc => b + 256 * acc) 0

/-- Modelled from the spec: util.recv with a four-unsigned-little-endian
format, which is not under src, interprets the first sixteen digest bytes
as four little-endian 32-bit words and fails on shorter input. -/
def recvLLLL (d : List Nat) : Option (List Nat) :=
  if 16 ≤ d.length then
    some [le32of (d.take 4), le32of ((d.drop 4).take 4),
          le32of ((d.drop 8).take 4), le32of ((d.drop 12).take 4)]
  else none

/-- Hardened-derivation bit mask. -/
def hardened : Nat := 0x80000000

/-- Path derivation of the client: little-endian index bytes concatenated
with the ASCII canonical label are hashed, the digest is read as four
little-endian words, and the path is 13 followed by those words, every
element or-ed with the hardened mask.  The digest function itself lives in
the formats module, not under src, so it is a parameter here. -/
def get_address (digest : List Nat → List Nat) (identity : Identity) :
    Option (List Nat) :=
  let index := packLE32 identity.index
  let addr := index ++ ascii (identity_to_string identity)
  (recvLLLL (digest addr)).map (fun ws => (13 :: ws).map (fun value => hardened ||| value))

/-- Follows the words of the spec for the path deriver: seed equals the
four-byte little-endian index followed by the ASCII canonical string, the
digest of the seed is read as four little-endian 32-bit words, and the
path is the constant 13 followed by those words, each or-ed with the
hardened mask. -/
def spec_derive (digest : List Nat → List Nat) (identity : Identity) : List Nat :=
  let seed := packLE32 identity.index ++ ascii (identity_to_string identity)
  let d := digest seed
  [13, le32of (d.take 4), le32of ((d.drop 4).take 4),
   le32of ((d.drop 8).take 4), le32of ((d.drop 12).take 4)].map
    (fun v => v ||| hardened)

/-- Signature post-processing step of sign_ssh_challenge: the four checks
of the source in order, classified into the error kinds of the design, and
on success the signature without its leading byte. -/
def finalize (expected_blob expected_key_type ret_blob ret_key_type sig : List Nat) :
    Except AgentError (List Nat) :=
  if ret_blob ≠ expected_blob then .error .protocolMismatch
  else if ret_key_type ≠ expected_key_type then .error .protocolMismatch
  else if sig.length ≠ 65 then .error .formatError
  else if sig.take 1 ≠ [0] then .error .formatError
  else .ok (sig.drop 1)

/-- Modelled from the spec: util.read_frame, which is not under src, reads
a length-prefixed frame, a four-byte big-endian length followed by exactly
that many bytes, and fails on truncated input. -/
def read_frame (d : List Nat) : Option (List Nat × List Nat) :=
  match d with
  | b0 :: b1 :: b2 :: b3 :: rest =>
    let n := ((b0 * 256 + b1) * 256 + b2) * 256 + b3
    if n ≤ rest.length then some (rest.take n, rest.drop n) else none
  | _ => none

/-- Record produced by the public-key blob sub-reader; the blob field keeps
the raw bytes, as the source record does. -/
structure PubKeyRecord where
  blob : List Nat
deriving DecidableEq

/-- Named fields of a parsed challenge blob, in the fixed order of the
source, with the embedded public key already run through the sub-reader. -/
structure SSHBlob where
  nonce : List Nat
  user : List Nat
  conn : List Nat
  auth : List Nat
  key_type : List Nat
  public_key : PubKeyRecord
deriving DecidableEq

/-- Raw fields consumed from a nonempty challenge blob together with the
bytes left over after the last frame. -/
structure RawFields where
  nonce : List Nat
  user : List Nat
  conn : List Nat
  auth : List Nat
  key_type : List Nat
  pk_blob : List Nat
  rest : List Nat
deriving DecidableEq

/-- Consumes the named fields of a challenge blob in order: nonce frame,
one reserved byte, user, conn and auth frames, one reserved byte, key type
frame, public key frame; returns the fields and the unconsumed remainder.
Reading a reserved byte past the end yields nothing, as in the source. -/
def consume_fields (data : List Nat) : Option RawFields := do
  let (nonce, r1) ← read_frame data
  let r2 := r1.drop 1
  let (user, r3) ← read_frame r2
  let (conn, r4) ← read_frame r3
  let (auth, r5) ← read_frame r4
  let r6 := r5.drop 1
  let (key_type, r7) ← read_frame r6
  let (pk_blob, r8) ← read_frame r7
  pure ⟨nonce, user, conn, auth, key_type, pk_blob, r8⟩

/-- Challenge blob reader: an empty input is the valid no-challenge value;
otherwise all fields are consumed, the public-key blob is run through the
sub-reader ppk, and any unconsumed trailing bytes are a hard error.  The
sub-reader for the embedded key lives in the formats module, not under
src, so it is a parameter here. -/
def parse_ssh_blob (ppk : List Nat → Except AgentError PubKeyRecord)
    (data : List Nat) : Except AgentError (Option SSHBlob) :=
  if data = [] then .ok none
  else
    match consume_fields data with
    | none => .error .formatError
    | some f =>
      match ppk f.pk_blob with
      | .error e => .error e
      | .ok pk =>
        if f.rest = [] then
          .ok (some ⟨f.nonce, f.user, f.conn, f.auth, f.key_type, pk⟩)
        else .error .formatError

deriving instance DecidableEq for Except

/-! Theorems. -/

/-- C2: whenever the public-key blob and key-type cross-checks pass, a raw
signature whose length is not 65, or whose length is 65 but whose first
byte is not 0, is rejected by the signature post-processing step with a
format error, regardless of the remaining signature content. -/
theorem finalize_rejects_malformed_signature
    (eb ek rb rk sig : List Nat)
    (hb : rb = eb) (hk : rk = ek)
    (hbad : sig.length ≠ 65 ∨ (sig.length = 65 ∧ sig.head? ≠ some 0)) :
    finalize eb ek rb rk sig = .error .formatError := by
  unfold finalize
  rw [if_neg (by simp [hb]), if_neg (by simp [hk])]
  rcases hbad with h | ⟨hlen, hhd⟩
  · rw [if_pos h]
  · rw [if_neg (by simp [hlen])]
    cases sig with
    | nil => simp at hlen
    | cons a t =>
      have ha : a ≠ 0 := by simpa [List.head?] using hhd
      rw [if_pos (by simp [List.take, ha])]

theorem finalize_rejects_malformed_signature_witness :
    finalize [3] [4] [3] [4] (List.replicate 65 1) = .error .formatError :=
  finalize_rejects_malformed_signature [3] [4] [3] [4] (List.replicate 65 1) rfl rfl
    (Or.inr ⟨by decide, by decide⟩)

/-- C3: if the returned public-key blob differs from the expected one, or
the returned key type differs from the expected one, the signature
post-processing step fails with a protocol mismatch error, even when the
raw signature itself is well formed. -/
theorem finalize_rejects_key_mismatch
    (eb ek rb rk sig : List Nat)
    (h : rb ≠ eb ∨ rk ≠ ek) :
    finalize eb ek rb rk sig = .error .protocolMismatch := by
  unfold finalize
  rcases h with h | h
  · rw [if_pos h]
  · by_cases hb : rb ≠ eb
    · rw [if_pos hb]
    · rw [if_neg hb, if_pos h]

theorem finalize_rejects_key_mismatch_witness :
    finalize [0] [1] [2] [1] (0 :: List.replicate 64 2) = .error .protocolMismatch :=
  finalize_rejects_key_mismatch [0] [1] [2] [1] (0 :: List.replicate 64 2)
    (Or.inl (by decide))

/-- C4: a 65-byte raw signature with first byte 0 that passes the blob and
key-type cross-checks yields exactly its trailing 64 bytes, with nothing
prepended. -/
theorem finalize_accepts_wellformed
    (eb ek rb rk sig : List Nat)
    (hb : rb = eb) (hk : rk = ek)
    (hlen : sig.length = 65) (hhd : sig.head? = some 0) :
    finalize eb ek rb rk sig = .ok (sig.drop 1) ∧ (sig.drop 1).length = 64 := by
  refine ⟨?_, by rw [List.length_drop, hlen]⟩
  unfold finalize
  rw [if_neg (by simp [hb]), if_neg (by simp [hk]), if_neg (by simp [hlen])]
  cases sig with
  | nil => simp at hlen
  | cons a t =>
    have ha : a = 0 := by simpa [List.head?] using hhd
    rw [if_neg (by simp [List.take, ha])]

theorem finalize_accepts_wellformed_witness :
    finalize [5] [6] [5] [6] (0 :: List.replicate 64 7) = .ok ((0 :: List.replicate 64 7).drop 1) ∧
    ((0 :: List.replicate 64 7).drop 1).length = 64 :=
  finalize_accepts_wellformed [5] [6] [5] [6] (0 :: List.replicate 64 7) rfl rfl
    (by decide) rfl

/-- C8: the empty challenge blob is the valid no-challenge value: the
reader returns successfully without parsing any field. -/
theorem parse_ssh_blob_empty_ok (ppk : List Nat → Except AgentError PubKeyRecord) :
    parse_ssh_blob ppk [] = .ok none := rfl

/-- C7: a nonempty challenge blob that is truncated in the middle of a
field, and a nonempty challenge blob with unconsumed trailing bytes after
all named fields, are both rejected as parse errors. -/
theorem parse_ssh_blob_exhaustive (ppk : List Nat → Except AgentError PubKeyRecord)
    (data : List Nat) (hne : data ≠ []) :
    (consume_fields data = none → parse_ssh_blob ppk data = .error .formatError) ∧
    (∀ f pk, consume_fields data = some f → ppk f.pk_blob = .ok pk → f.rest ≠ [] →
      parse_ssh_blob ppk data = .error .formatError) ∧
    (∀ f e, consume_fields data = some f → ppk f.pk_blob = .error e →
      parse_ssh_blob ppk data = .error e) := by
  refine ⟨?_, ?_, ?_⟩
  · intro h
    unfold parse_ssh_blob
    rw [if_neg hne, h]
  · intro f pk hf hpk hrest
    simp [parse_ssh_blob, hne, hf, hpk, hrest]
  · intro f e hf hpk
    simp [parse_ssh_blob, hne, hf, hpk]

theorem parse_ssh_blob_exhaustive_witness :
    parse_ssh_blob (fun b => .ok ⟨b⟩) [0, 0, 0, 0] = .error .formatError ∧
    parse_ssh_blob (fun b => .ok ⟨b⟩)
      ([0, 0, 0, 0] ++ [9] ++ [0, 0, 0, 0] ++ [0, 0, 0, 0] ++ [0, 0, 0, 0] ++ [9] ++
        [0, 0, 0, 0] ++ [0, 0, 0, 0] ++ [1]) = .error .formatError :=
  ⟨(parse_ssh_blob_exhaustive (fun b => .ok ⟨b⟩) [0, 0, 0, 0] (by decide)).1 (by decide),
   (parse_ssh_blob_exhaustive (fun b => .ok ⟨b⟩) _ (by decide)).2.1
     ⟨[], [], [], [], [], [], [1]⟩ ⟨[]⟩ (by decide) rfl (by decide)⟩

/-- C9: a label in which the grammar cannot assign a non-empty host group
fails with a format error instead of producing an identity. -/
theorem string_to_identity_requires_host (s : List Char)
    (h : (matchIdentity s).host = []) :
    string_to_identity s = .error .formatError := by
  unfold string_to_identity mkIdentityRecord
  simp [h]

theorem string_to_identity_requires_host_witness :
    string_to_identity ":22".data = .error .formatError :=
  string_to_identity_requires_host ":22".data (by decide)

/-- C1: for every identity and index below 2 to the 32, and every digest
function whose output has at least 16 bytes, the derived path is defined
and equals the formula of the spec: the constant 13 followed by the four
little-endian 32-bit words of the digest of the seed, every element or-ed
with the hardened mask; consequently the path has five elements, every
element has bit 31 set, and the first element is 0x8000000D. -/
theorem get_address_follows_spec (digest : List Nat → List Nat) (identity : Identity)
    (_hidx : identity.index < 4294967296)
    (hlen : 16 ≤ (digest (packLE32 identity.index ++ ascii (identity_to_string identity))).length) :
    get_address digest identity = some (spec_derive digest identity) ∧
    (spec_derive digest identity).length = 5 ∧
    (∀ x ∈ spec_derive digest identity, x.testBit 31 = true) ∧
    (spec_derive digest identity).head? = some 0x8000000D := by
  refine ⟨?_, by simp [spec_derive], ?_, ?_⟩
  · simp [get_address, spec_derive, recvLLLL, hlen, List.map, Nat.lor_comm]
  · intro x hx
    simp only [spec_derive, List.mem_map] at hx
    obtain ⟨v, _, rfl⟩ := hx
    rw [Nat.testBit_lor]
    have h31 : hardened.testBit 31 = true := by decide
    rw [h31, Bool.or_true]
  · have : (13 : Nat) ||| hardened = 0x8000000D := by decide
    simp [spec_derive, this]

theorem get_address_follows_spec_witness :
    16 ≤ ((fun _ => List.range 32) (packLE32 (0 : Nat) ++ ascii (identity_to_string ⟨[], [], ['h'], [], [], 0⟩))).length ∧
    get_address (fun _ => List.range 32) ⟨[], [], ['h'], [], [], 0⟩ =
      some (spec_derive (fun _ => List.range 32) ⟨[], [], ['h'], [], [], 0⟩) :=
  ⟨by decide,
   (get_address_follows_spec (fun _ => List.range 32) ⟨[], [], ['h'], [], [], 0⟩
     (by decide) (by decide)).1⟩

/-! Reconstruction lemmas for the label grammar: every stage of the match
decomposes its input exactly, so the matched groups concatenate back to
the original label. -/

lemma isPrefixOf_exists (p : List Char) : ∀ s, p.isPrefixOf s = true → ∃ t, s = p ++ t := by
  induction p with
  | nil => intro s _; exact ⟨s, rfl⟩
  | cons a p ih =>
    intro s h
    cases s with
    | nil => simp [List.isPrefixOf] at h
    | cons b t =>
      simp only [List.isPrefixOf, Bool.and_eq_true, beq_iff_eq] at h
      obtain ⟨rfl, h2⟩ := h
      obtain ⟨u, rfl⟩ := ih t h2
      exact ⟨u, rfl⟩

lemma isPrefixOf_append_self (p t : List Char) : p.isPrefixOf (p ++ t) = true := by
  induction p with
  | nil => simp [List.isPrefixOf]
  | cons a p ih => simp [List.isPrefixOf, ih]

lemma splitLast_eq_append (pat : List Char) :
    ∀ s pre post, splitLast pat s = some (pre, post) → s = pre ++ pat ++ post := by
  intro s
  induction s with
  | nil =>
    intro pre post h
    cases pat with
    | nil =>
      simp [splitLast, List.isPrefixOf] at h
      obtain ⟨rfl, rfl⟩ := h
      rfl
    | cons c q => simp [splitLast, List.isPrefixOf] at h
  | cons c s ih =>
    intro pre post h
    simp only [splitLast] at h
    cases hs : splitLast pat s with
    | some pr =>
      obtain ⟨a, b⟩ := pr
      rw [hs] at h
      simp only [Option.some.injEq, Prod.mk.injEq] at h
      obtain ⟨rfl, rfl⟩ := h
      have hrec := ih a b hs
      simp [hrec]
    | none =>
      rw [hs] at h
      by_cases hp : pat.isPrefixOf (c :: s) = true
      · rw [if_pos hp] at h
        simp only [Option.some.injEq, Prod.mk.injEq] at h
        obtain ⟨rfl, rfl⟩ := h
        obtain ⟨t, ht⟩ := isPrefixOf_exists pat (c :: s) hp
        rw [ht, List.nil_append]
        congr 1
        exact (List.drop_left pat t).symm
      · rw [if_neg hp] at h
        exact absurd h (by simp)

lemma splitLast_isSome (pat : List Char) :
    ∀ p rest, (splitLast pat (p ++ (pat ++ rest))).isSome = true := by
  intro p
  induction p with
  | nil =>
    intro rest
    simp only [List.nil_append]
    cases hpr : pat ++ rest with
    | nil =>
      have hp : pat = [] := (List.append_eq_nil.mp hpr).1
      subst hp
      simp [splitLast, List.isPrefixOf]
    | cons c t =>
      simp only [splitLast]
      cases hs : splitLast pat t with
      | some pr => simp
      | none =>
        have hp : pat.isPrefixOf (c :: t) = true := by
          rw [← hpr]; exact isPrefixOf_append_self pat rest
        have hp2 : pat <+: c :: t := ⟨rest, hpr⟩
        simp [hp, hp2]
  | cons c p ih =>
    intro rest
    simp only [List.cons_append, splitLast]
    cases hs : splitLast pat (p ++ (pat ++ rest)) with
    | some pr => simp
    | none =>
      have := ih rest
      rw [hs] at this
      simp at this

/-- Remainder of the label after the proto group. -/
def protoRest (s : List Char) : List Char := (protoSplit s).2

lemma protoRest_append (p rest : List Char) :
    protoRest (p ++ (sep3 ++ rest)) = protoRest rest := by
  induction p with
  | nil =>
    simp only [List.nil_append]
    cases hs : splitLast sep3 rest with
    | some pr =>
      obtain ⟨a, b⟩ := pr
      have h3 : splitLast sep3 (':' :: '/' :: '/' :: rest) = some (':' :: '/' :: '/' :: a, b) := by
        simp [splitLast, hs]
      show (protoSplit (':' :: '/' :: '/' :: rest)).2 = (protoSplit rest).2
      simp [protoSplit, h3, hs]
    | none =>
      have hn1 : ¬ (sep3 <+: ('/' :: rest)) := by
        intro hpf
        obtain ⟨t, ht⟩ := hpf
        simp only [sep3, List.cons_append] at ht
        injection ht with h1 h2
        exact absurd h1 (by decide)
      have hn2 : ¬ (sep3 <+: ('/' :: '/' :: rest)) := by
        intro hpf
        obtain ⟨t, ht⟩ := hpf
        simp only [sep3, List.cons_append] at ht
        injection ht with h1 h2
        exact absurd h1 (by decide)
      have hp3 : sep3 <+: (':' :: '/' :: '/' :: rest) := ⟨rest, rfl⟩
      have hs' : splitLast [':', '/', '/'] rest = none := hs
      have h3 : splitLast sep3 (':' :: '/' :: '/' :: rest) = some ([], rest) := by
        simp [splitLast, hs, hs', hn1, hn2, hp3, sep3]
      show (protoSplit (':' :: '/' :: '/' :: rest)).2 = (protoSplit rest).2
      simp [protoSplit, h3, hs]
  | cons c p ih =>
    have hsome := splitLast_isSome sep3 p rest
    cases hs : splitLast sep3 (p ++ (sep3 ++ rest)) with
    | none => rw [hs] at hsome; simp at hsome
    | some pr =>
      obtain ⟨a, b⟩ := pr
      have hL : splitLast sep3 (c :: (p ++ (sep3 ++ rest))) = some (c :: a, b) := by
        simp [splitLast, hs]
      have hR : protoRest (p ++ (sep3 ++ rest)) = b := by
        simp [protoRest, protoSplit, hs]
      have hgoal : protoRest (c :: p ++ (sep3 ++ rest)) = b := by
        simp [protoRest, protoSplit, List.cons_append, hL]
      rw [hgoal, ← hR]
      exact ih

lemma get_identity_congr (s₁ s₂ : List Char) (h : protoRest s₁ = protoRest s₂) :
    get_identity s₁ = get_identity s₂ := by
  have h' : (protoSplit s₁).2 = (protoSplit s₂).2 := h
  unfold get_identity string_to_identity matchIdentity mkIdentityRecord
  rw [h']
  by_cases hh : (hostSplit (userSplit (protoSplit s₂).2).2).1 = []
  · simp [hh]
  · simp [hh]

/-- Group tagged by a trailing separator, as the proto and user groups
contribute to the label. -/
def optTag (tag : List Char) : Option (List Char) → List Char
  | some x => x ++ tag
  | none => []

/-- Contribution of the port group to the label. -/
def optPort : Option (List Char) → List Char
  | some pt => ':' :: pt
  | none => []

/-- Contribution of the path group to the label. -/
def optPath : Option (List Char) → List Char
  | some pa => pa
  | none => []

lemma protoSplit_reconstruct (s : List Char) :
    s = optTag sep3 (protoSplit s).1 ++ (protoSplit s).2 := by
  unfold protoSplit
  cases hs : splitLast sep3 s with
  | none => simp [optTag]
  | some pr =>
    obtain ⟨a, b⟩ := pr
    have hrec := splitLast_eq_append sep3 s a b hs
    simp [optTag, hrec]

lemma userSplit_reconstruct (s : List Char) :
    s = optTag ['@'] (userSplit s).1 ++ (userSplit s).2 := by
  unfold userSplit
  cases hs : splitLast ['@'] s with
  | none => simp [optTag]
  | some pr =>
    obtain ⟨a, b⟩ := pr
    have hrec := splitLast_eq_append ['@'] s a b hs
    simp [optTag, hrec]

lemma hostSplit_reconstruct (t : List Char) :
    t = (hostSplit t).1 ++ (hostSplit t).2 := by
  induction t with
  | nil => rfl
  | cons c r ih =>
    unfold hostSplit
    by_cases hv : viable (c :: r) = true
    · simp [hv]
    · simp only [hv, if_neg, Bool.false_eq_true, not_false_eq_true, List.cons_append]
      rw [← ih]

lemma portPathSplit_reconstruct (u : List Char) :
    u = optPort (portPathSplit u).1 ++ optPath (portPathSplit u).2 := by
  cases u with
  | nil => rfl
  | cons c r =>
    unfold portPathSplit
    by_cases hc : c = ':'
    · subst hc
      simp only [if_pos rfl]
      have htd : r.takeWhile isWordChar ++ r.dropWhile isWordChar = r :=
        List.takeWhile_append_dropWhile isWordChar r
      by_cases hd : r.dropWhile isWordChar = []
      · rw [hd, List.append_nil] at htd
        simp [hd, optPort, optPath, htd]
      · simp [hd, optPort, optPath, htd]
    · simp [hc, optPort, optPath]

lemma matchIdentity_reconstruct (s : List Char) :
    s = optTag sep3 (matchIdentity s).proto ++
        (optTag ['@'] (matchIdentity s).user ++
        ((matchIdentity s).host ++
        (optPort (matchIdentity s).port ++ optPath (matchIdentity s).path))) := by
  show s = optTag sep3 (protoSplit s).1 ++
      (optTag ['@'] (userSplit (protoSplit s).2).1 ++
      ((hostSplit (userSplit (protoSplit s).2).2).1 ++
      (optPort (portPathSplit (hostSplit (userSplit (protoSplit s).2).2).2).1 ++
       optPath (portPathSplit (hostSplit (userSplit (protoSplit s).2).2).2).2)))
  conv_lhs => rw [protoSplit_reconstruct s]
  congr 1
  conv_lhs => rw [userSplit_reconstruct (protoSplit s).2]
  congr 1
  conv_lhs => rw [hostSplit_reconstruct (userSplit (protoSplit s).2).2]
  congr 1
  exact portPathSplit_reconstruct (hostSplit (userSplit (protoSplit s).2).2).2

/-- States that every group that participated in the match is non-empty,
so that the truthiness filter of the source drops nothing. -/
def rawAllNonEmpty (m : RawMatch) : Prop :=
  m.proto ≠ some [] ∧ m.user ≠ some [] ∧ m.port ≠ some [] ∧ m.path ≠ some []

instance rawAllNonEmptyDecidable (m : RawMatch) : Decidable (rawAllNonEmpty m) :=
  inferInstanceAs (Decidable (_ ∧ _ ∧ _ ∧ _))

lemma canon_tag (tag : List Char) (o : Option (List Char)) (h : o ≠ some []) :
    (if truthy o = [] then [] else truthy o ++ tag) = optTag tag o := by
  cases o with
  | none => simp [truthy, optTag]
  | some x =>
    have hx : x ≠ [] := fun hx => h (by rw [hx])
    simp [truthy, optTag, hx]

lemma canon_port (o : Option (List Char)) (h : o ≠ some []) :
    (if truthy o = [] then [] else ':' :: truthy o) = optPort o := by
  cases o with
  | none => simp [truthy, optPort]
  | some x =>
    have hx : x ≠ [] := fun hx => h (by rw [hx])
    simp [truthy, optPort, hx]

lemma canon_path (o : Option (List Char)) (h : o ≠ some []) :
    (if truthy o = [] then [] else truthy o) = optPath o := by
  cases o with
  | none => simp [truthy, optPath]
  | some x =>
    have hx : x ≠ [] := fun hx => h (by rw [hx])
    simp [truthy, optPath, hx]

/-- C5 (amended): for every label accepted by the grammar all of whose
participating optional groups are non-empty, canonicalization is exact,
identity_to_string of the parse returns the label itself, and therefore
parsing is idempotent through canonicalization.  With an empty matched
group both equations can fail, see the counterexample. -/
theorem identity_round_trip (s : List Char) (i : Identity)
    (hp : string_to_identity s = .ok i)
    (hne : rawAllNonEmpty (matchIdentity s)) :
    identity_to_string i = s ∧
    string_to_identity (identity_to_string i) = string_to_identity s := by
  obtain ⟨h1, h2, h3, h4⟩ := hne
  unfold string_to_identity mkIdentityRecord at hp
  by_cases hh : (matchIdentity s).host = []
  · simp [hh] at hp
  · simp only [hh, if_neg, ite_false, if_false] at hp
    have hi : i = ⟨truthy (matchIdentity s).proto, truthy (matchIdentity s).user,
        (matchIdentity s).host, truthy (matchIdentity s).port,
        truthy (matchIdentity s).path, 0⟩ := by
      cases hp
      rfl
    subst hi
    have hcanon : identity_to_string
        ⟨truthy (matchIdentity s).proto, truthy (matchIdentity s).user,
         (matchIdentity s).host, truthy (matchIdentity s).port,
         truthy (matchIdentity s).path, 0⟩ = s := by
      unfold identity_to_string
      simp only
      rw [canon_tag sep3 (matchIdentity s).proto h1,
          canon_tag ['@'] (matchIdentity s).user h2,
          canon_port (matchIdentity s).port h3,
          canon_path (matchIdentity s).path h4]
      simp only [List.append_assoc]
      exact (matchIdentity_reconstruct s).symm
    exact ⟨hcanon, by rw [hcanon]⟩

theorem identity_round_trip_witness :
    identity_to_string ⟨"ssh".data, "alice".data, "git.example.com".data, "22".data, "/repo".data, 0⟩ =
      "ssh://alice@git.example.com:22/repo".data ∧
    string_to_identity (identity_to_string
        ⟨"ssh".data, "alice".data, "git.example.com".data, "22".data, "/repo".data, 0⟩) =
      string_to_identity "ssh://alice@git.example.com:22/repo".data :=
  identity_round_trip "ssh://alice@git.example.com:22/repo".data
    ⟨"ssh".data, "alice".data, "git.example.com".data, "22".data, "/repo".data, 0⟩
    (by decide) (by decide)

/-- C5 counterexample: the label a:b: parses to the identity with host a:b
and an empty, hence dropped, port group; its canonical string a:b parses
to the different identity with host a and port b.  So parsing is not
idempotent through canonicalization, and the canonical string differs
from the original label. -/
theorem identity_round_trip_cex :
    string_to_identity "a:b:".data = .ok ⟨[], [], "a:b".data, [], [], 0⟩ ∧
    identity_to_string ⟨[], [], "a:b".data, [], [], 0⟩ = "a:b".data ∧
    string_to_identity "a:b".data = .ok ⟨[], [], "a".data, "b".data, [], 0⟩ ∧
    (⟨[], [], "a".data, "b".data, [], 0⟩ : Identity) ≠ ⟨[], [], "a:b".data, [], [], 0⟩ ∧
    "a:b".data ≠ "a:b:".data :=
  ⟨by decide, by decide, by decide, by decide, by decide⟩

/-- C6: the identity used by the device operations always carries proto
ssh, and prepending any protocol prefix to a label does not change the
resulting identity at all, hence neither its canonical string nor its
derived path. -/
theorem get_identity_forces_ssh :
    (∀ s i, get_identity s = .ok i → i.proto = "ssh".data) ∧
    (∀ p rest, get_identity (p ++ sep3 ++ rest) = get_identity rest) ∧
    (∀ p rest i₁ i₂, get_identity (p ++ sep3 ++ rest) = .ok i₁ → get_identity rest = .ok i₂ →
      identity_to_string i₁ = identity_to_string i₂ ∧
      ∀ digest, get_address digest i₁ = get_address digest i₂) := by
  have hmain : ∀ p rest, get_identity (p ++ sep3 ++ rest) = get_identity rest := by
    intro p rest
    rw [List.append_assoc]
    exact get_identity_congr (p ++ (sep3 ++ rest)) rest (protoRest_append p rest)
  refine ⟨?_, hmain, ?_⟩
  · intro s i h
    unfold get_identity at h
    cases hs : string_to_identity s with
    | error e => rw [hs] at h; exact absurd h (by simp)
    | ok j =>
      rw [hs] at h
      simp only [Except.ok.injEq] at h
      rw [← h]
  · intro p rest i₁ i₂ h₁ h₂
    rw [hmain p rest, h₂] at h₁
    simp only [Except.ok.injEq] at h₁
    rw [h₁]
    exact ⟨rfl, fun _ => rfl⟩

theorem get_identity_forces_ssh_witness :
    (⟨"ssh".data, [], "host".data, [], [], 0⟩ : Identity).proto = "ssh".data ∧
    get_identity ("x".data ++ sep3 ++ "host".data) = get_identity "host".data :=
  ⟨get_identity_forces_ssh.1 "host".data ⟨"ssh".data, [], "host".data, [], [], 0⟩ (by decide),
   get_identity_forces_ssh.2.1 "x".data "host".data⟩

lemma port_chars_word (u : List Char) :
    ∀ c ∈ truthy (portPathSplit u).1, isWordChar c = true := by
  cases u with
  | nil => intro c hc; simp [portPathSplit, truthy] at hc
  | cons a r =>
    by_cases ha : a = ':'
    · subst ha
      intro c hc
      simp only [portPathSplit, if_pos rfl, truthy] at hc
      exact List.mem_takeWhile_imp hc
    · intro c hc
      simp [portPathSplit, ha, truthy] at hc

/-- C10 (amended): the port field of every parsed identity consists only
of word characters, that is, alphanumerics or the underscore.  The
original claim, alphanumerics only, fails because the port group also
accepts the underscore, see the counterexample. -/
theorem port_is_word_chars (s : List Char) (i : Identity)
    (hp : string_to_identity s = .ok i) :
    ∀ c ∈ i.port, c.isAlphanum = true ∨ c = '_' := by
  unfold string_to_identity mkIdentityRecord at hp
  by_cases hh : (matchIdentity s).host = []
  · simp [hh] at hp
  · rw [if_neg hh] at hp
    have hi : i = ⟨truthy (matchIdentity s).proto, truthy (matchIdentity s).user,
        (matchIdentity s).host, truthy (matchIdentity s).port,
        truthy (matchIdentity s).path, 0⟩ := by
      cases hp
      rfl
    subst hi
    intro c hc
    have hw : isWordChar c = true :=
      port_chars_word (hostSplit (userSplit (protoSplit s).2).2).2 c hc
    simp only [isWordChar, Bool.or_eq_true, beq_iff_eq] at hw
    exact hw

theorem port_is_word_chars_witness :
    Char.isAlphanum '_' = true ∨ '_' = '_' :=
  port_is_word_chars "host:a_b".data ⟨[], [], "host".data, "a_b".data, [], 0⟩
    (by decide) '_' (by decide)

/-- C10 counterexample: the label host:a_b parses with port a_b, and the
underscore is not an alphanumeric character, so a parsed port need not be
purely alphanumeric. -/
theorem port_is_word_chars_cex :
    string_to_identity "host:a_b".data = .ok ⟨[], [], "host".data, "a_b".data, [], 0⟩ ∧
    '_' ∈ (⟨[], [], "host".data, "a_b".data, [], 0⟩ : Identity).port ∧
    Char.isAlphanum '_' = false :=
  ⟨by decide, by decide, by decide⟩

end TrezorAgent
